import Mathlib

/-!
Shallow embedding of the CFG-simplification engine
(`llvm/lib/Transforms/Utils/SimplifyCFG.cpp`) for checking the
natural-language specification against the code.

Block identifiers and SSA value identifiers are modelled as `Nat`.
A PHI node is its list of incoming entries `(predecessor block, value)`,
in operand order, exactly as `PHINode` stores them.  A block's
predecessor list is the edge multiset implied by the terminators of the
other blocks (one entry per edge, so a block reached twice from the same
switch appears twice), matching `pred_begin`/`pred_end`.
-/

/-- `PHINode::getIncomingValueForBlock`: the value paired with the first
incoming entry whose block is `b` (the C++ asserts the entry exists; we
default to `0`). -/
def getIncomingValueForBlock (phi : List (Nat × Nat)) (b : Nat) : Nat :=
  match phi.find? (fun e => e.1 = b) with
  | some e => e.2
  | none => 0

/-- `AddPredecessorToBlock` (SimplifyCFG.cpp:327): for one PHI node of
`Succ`, append an incoming entry for `NewPred` carrying the value that
already flows in from `ExistPred` (`PN.addIncoming(PN.getIncomingValueForBlock(ExistPred), NewPred)`). -/
def addPredecessorToBlock (newPred existPred : Nat) (phi : List (Nat × Nat)) :
    List (Nat × Nat) :=
  phi ++ [(newPred, getIncomingValueForBlock phi existPred)]

/-- `PHINode::removeIncomingValue(BB)`: remove the first incoming entry
whose block is `b` (LLVM locates it with `getBasicBlockIndex`, which
returns the first matching operand index). -/
def removeIncomingValue (b : Nat) : List (Nat × Nat) → List (Nat × Nat)
  | [] => []
  | e :: rest => if e.1 = b then rest else e :: removeIncomingValue b rest

/-- `n` repetitions of `removeIncomingValue`, as in the pruning loops of
`TurnSwitchRangeIntoICmp` (SimplifyCFG.cpp:4992-5006), which call
`removeIncomingValue(SI->getParent())` once per obsolete edge. -/
def removeIncomingN (n b : Nat) (phi : List (Nat × Nat)) : List (Nat × Nat) :=
  match n with
  | 0 => phi
  | n + 1 => removeIncomingN n b (removeIncomingValue b phi)

/-- `n` edge deletions from a predecessor-edge list: each deletion drops
one occurrence of `b`, mirroring how replacing an `n`-edge switch by a
branch removes `n` of the edges from the terminator's target list. -/
def erasePredN (n b : Nat) (preds : List Nat) : List Nat :=
  match n with
  | 0 => preds
  | n + 1 => erasePredN n b (preds.erase b)

/-- A basic block as seen by the PHI-consistency invariant: its
predecessor edge list (with multiplicity) and the incoming-entry lists of
the PHI nodes at its head. -/
structure PhiBlock where
  preds : List Nat
  phis : List (List (Nat × Nat))

/-- The PHI invariant for one PHI node: its incoming-block multiset
equals the block's predecessor edge multiset (no extra, no missing). -/
def phiDomainOk (preds : List Nat) (phi : List (Nat × Nat)) : Prop :=
  (phi.map Prod.fst).Perm preds

instance (preds : List Nat) (phi : List (Nat × Nat)) :
    Decidable (phiDomainOk preds phi) := by
  unfold phiDomainOk; infer_instance

/-- The PHI invariant for a whole block. -/
def blockPhisOk (b : PhiBlock) : Prop :=
  ∀ phi ∈ b.phis, phiDomainOk b.preds phi

instance (b : PhiBlock) : Decidable (blockPhisOk b) := by
  unfold blockPhisOk; infer_instance

/-- The edge-repair step performed when a rule adds the edge
`NewPred → Succ`: the new edge joins `Succ`'s predecessor list and
`AddPredecessorToBlock` extends every PHI of `Succ` in the same step
(SimplifyCFG.cpp:327-340 and its call sites, e.g. line 1270). -/
def addPredEdge (b : PhiBlock) (newPred existPred : Nat) : PhiBlock :=
  { preds := b.preds ++ [newPred]
    phis := b.phis.map (addPredecessorToBlock newPred existPred) }

/-- The edge-repair step performed by `TurnSwitchRangeIntoICmp` on a
destination that loses `n` of its edges from the switch block `sb`: the
predecessor list drops `n` occurrences of `sb` and every PHI drops `n`
incoming entries for `sb` (the `PreviousEdges - 1` pruning loops at
SimplifyCFG.cpp:4993-5006). -/
def pruneSwitchEdges (n sb : Nat) (b : PhiBlock) : PhiBlock :=
  { preds := erasePredN n sb b.preds
    phis := b.phis.map (removeIncomingN n sb) }

theorem map_fst_removeIncomingValue (b : Nat) (phi : List (Nat × Nat)) :
    (removeIncomingValue b phi).map Prod.fst = (phi.map Prod.fst).erase b := by
  induction phi with
  | nil => rfl
  | cons e rest ih =>
    by_cases h : e.1 = b
    · simp [removeIncomingValue, h, List.erase_cons_head]
    · have hbe : ¬(e.1 == b) = true := by simpa using h
      simp [removeIncomingValue, h, List.erase_cons_tail hbe, ih]

theorem phiDomainOk_removeIncomingValue {preds : List Nat}
    {phi : List (Nat × Nat)} (b : Nat) (h : phiDomainOk preds phi) :
    phiDomainOk (preds.erase b) (removeIncomingValue b phi) := by
  unfold phiDomainOk at *
  rw [map_fst_removeIncomingValue]
  exact h.erase b

theorem phiDomainOk_removeIncomingN {preds : List Nat}
    {phi : List (Nat × Nat)} (n b : Nat) (h : phiDomainOk preds phi) :
    phiDomainOk (erasePredN n b preds) (removeIncomingN n b phi) := by
  induction n generalizing preds phi with
  | zero => exact h
  | succ n ih =>
    exact ih (phiDomainOk_removeIncomingValue b h)

/-- C1: after the modelled edge edits fire, every PHI node's
incoming-value domain equals exactly its block's current predecessor
edge multiset: adding the edge `NewPred → Succ` together with the
`AddPredecessorToBlock` repair (SimplifyCFG.cpp:327-340) preserves the
invariant, and so does deleting `n` switch edges together with the
`removeIncomingValue` pruning of `TurnSwitchRangeIntoICmp`
(SimplifyCFG.cpp:4992-5006): no extra entries and no missing entries. -/
theorem phi_domain_invariant_preserved :
    (∀ (b : PhiBlock) (newPred existPred : Nat), blockPhisOk b →
      blockPhisOk (addPredEdge b newPred existPred)) ∧
    (∀ (b : PhiBlock) (n sb : Nat), blockPhisOk b →
      blockPhisOk (pruneSwitchEdges n sb b)) := by
  constructor
  · intro b newPred existPred h phi hphi
    simp only [addPredEdge, List.mem_map] at hphi
    obtain ⟨phi0, hphi0, rfl⟩ := hphi
    have h0 := h phi0 hphi0
    unfold phiDomainOk addPredecessorToBlock at *
    simpa using h0.append_right [newPred]
  · intro b n sb h phi hphi
    simp only [pruneSwitchEdges, List.mem_map] at hphi
    obtain ⟨phi0, hphi0, rfl⟩ := hphi
    exact phiDomainOk_removeIncomingN n sb (h phi0 hphi0)

/-- Witness for `phi_domain_invariant_preserved`: a concrete block with
two predecessor edges and one PHI node; the invariant holds before and
after adding edge `7 → succ` (copying the value flowing from block `1`)
and after pruning two of three switch edges from block `9`. -/
theorem phi_domain_invariant_preserved_witness :
    blockPhisOk ⟨[1, 2], [[(1, 10), (2, 20)]]⟩ ∧
    blockPhisOk (addPredEdge ⟨[1, 2], [[(1, 10), (2, 20)]]⟩ 7 1) ∧
    blockPhisOk
      (pruneSwitchEdges 2 9 ⟨[9, 9, 9, 4], [[(9, 5), (9, 5), (4, 6), (9, 5)]]⟩) :=
  ⟨by decide,
   phi_domain_invariant_preserved.1 ⟨[1, 2], [[(1, 10), (2, 20)]]⟩ 7 1 (by decide),
   phi_domain_invariant_preserved.2 ⟨[9, 9, 9, 4], [[(9, 5), (9, 5), (4, 6), (9, 5)]]⟩
     2 9 (by decide)⟩

/-!
The per-block fixpoint driver (`SimplifyCFGOpt::run`,
SimplifyCFG.cpp:6809-6822):

    do {
      Resimplify = false;
      Changed |= simplifyOnce(BB);
    } while (Resimplify);
    return Changed;

One round is modelled as a function from a state to
(new state, changed flag of the round, resimplify request); the loop is
given explicit fuel so that termination is a provable property (`none`
means the fuel ran out before the loop exited). -/

/-- `SimplifyCFGOpt::run`: repeat one simplification round while the
round requests resimplification, accumulating the `Changed` flag. -/
def runDriver {S : Type} (simplifyOnce : S → S × Bool × Bool) :
    Nat → S → Bool → Option (S × Bool)
  | 0, _, _ => none
  | fuel + 1, s, changed =>
    match simplifyOnce s with
    | (s1, c, resimplify) =>
      if resimplify then runDriver simplifyOnce fuel s1 (changed || c)
      else some (s1, changed || c)

/-- If the accumulated `Changed` flag is already `true` when the loop is
entered, the returned flag is `true` (`Changed |= ...` never clears it). -/
theorem runDriver_acc_true {S : Type} (step : S → S × Bool × Bool) :
    ∀ (fuel : Nat) (s s' : S) (ch : Bool),
      runDriver step fuel s true = some (s', ch) → ch = true := by
  intro fuel
  induction fuel with
  | zero => intro s s' ch h; simp [runDriver] at h
  | succ n ih =>
    intro s s' ch h
    rcases hstep : step s with ⟨s1, c, r⟩
    simp only [runDriver, hstep] at h
    by_cases hr : r = true
    · rw [hr] at h
      simp only [if_pos rfl, Bool.true_or] at h
      exact ih s1 s' ch h
    · rw [Bool.not_eq_true] at hr
      rw [hr] at h
      simp only [Bool.false_eq_true, if_false, Bool.true_or,
        Option.some.injEq, Prod.mk.injEq] at h
      exact h.2.symm

/-- C9: the driver is idempotent.  Under the rule contract of the spec
(a round that reports `changed = false` performed no mutation and
requested no resimplification), if an invocation of the driver returned
with no further changes, the state was not touched and re-running the
driver on it again performs no changes and returns `changed = false`. -/
theorem driver_idempotent {S : Type} (simplifyOnce : S → S × Bool × Bool)
    (hcontract : ∀ s, (simplifyOnce s).2.1 = false →
      (simplifyOnce s).1 = s ∧ (simplifyOnce s).2.2 = false)
    (fuel : Nat) (s s' : S)
    (h : runDriver simplifyOnce fuel s false = some (s', false)) :
    s' = s ∧ ∀ fuel' : Nat, 0 < fuel' →
      runDriver simplifyOnce fuel' s false = some (s, false) := by
  rcases fuel with _ | n
  · simp [runDriver] at h
  rcases hstep : simplifyOnce s with ⟨s1, c, r⟩
  simp only [runDriver, hstep] at h
  have hc : c = false := by
    by_cases hcv : c = true
    · rw [hcv] at h
      by_cases hr : r = true
      · rw [hr] at h
        simp only [if_pos rfl, Bool.false_or] at h
        exact absurd (runDriver_acc_true simplifyOnce n s1 s' false h) (by simp)
      · rw [Bool.not_eq_true] at hr
        rw [hr] at h
        simp at h
    · rwa [Bool.not_eq_true] at hcv
  have hfix := hcontract s (by rw [hstep, hc])
  rw [hstep] at hfix
  have hr : r = false := hfix.2
  have hs1 : s1 = s := hfix.1
  rw [hc, hr, hs1] at h
  simp only [Bool.false_eq_true, if_false, Bool.or_false,
    Option.some.injEq, Prod.mk.injEq] at h
  refine ⟨h.1.symm, ?_⟩
  intro fuel' hf
  rcases fuel' with _ | m
  · exact absurd hf (by simp)
  rw [hc, hr, hs1] at hstep
  simp [runDriver, hstep]

/-- Witness for `driver_idempotent`: a round function that never changes
anything; the driver returns `(state, false)` and re-running it returns
the same. -/
theorem driver_idempotent_witness :
    runDriver (fun s : Nat => (s, false, false)) 1 42 false = some (42, false) ∧
    runDriver (fun s : Nat => (s, false, false)) 3 42 false = some (42, false) :=
  ⟨rfl,
   (driver_idempotent (fun s : Nat => (s, false, false))
      (fun _ _ => ⟨rfl, rfl⟩) 1 42 42 rfl).2 3 (by decide)⟩

/-- C2 (amended): if every round that requests resimplification strictly
decreases a well-founded measure of the state, the driver loop of
`SimplifyCFGOpt::run` reaches its fixpoint within `μ s + 1` rounds, for
every start state — with that hypothesis, fuel `μ s + 1` never runs
out. -/
theorem driver_terminates_with_measure {S : Type}
    (step : S → S × Bool × Bool) (μ : S → Nat)
    (hdec : ∀ s, (step s).2.2 = true → μ (step s).1 < μ s) :
    ∀ (fuel : Nat) (s : S) (acc : Bool), μ s < fuel →
      (runDriver step fuel s acc).isSome := by
  intro fuel
  induction fuel with
  | zero => intro s acc hlt; exact absurd hlt (Nat.not_lt_zero _)
  | succ n ih =>
    intro s acc hlt
    rcases hstep : step s with ⟨s1, c, r⟩
    simp only [runDriver, hstep]
    by_cases hr : r = true
    · rw [hr]
      simp only [if_pos rfl]
      apply ih
      have hmu : μ s1 < μ s := by
        have := hdec s (by rw [hstep, hr])
        rwa [hstep] at this
      omega
    · rw [Bool.not_eq_true] at hr
      rw [hr]
      simp

/-- Witness for `driver_terminates_with_measure`: a round function that
counts its state down by one while requesting resimplification; starting
at 5 with fuel 6 the driver reaches its fixpoint. -/
theorem driver_terminates_with_measure_witness :
    (runDriver (fun n : Nat => (n - 1, true, decide (1 ≤ n))) 6 5 false).isSome :=
  driver_terminates_with_measure (fun n : Nat => (n - 1, true, decide (1 ≤ n)))
    (fun n => n)
    (fun s hs => by
      simp only [decide_eq_true_eq] at hs
      show s - 1 < s
      omega)
    6 5 false (by decide)

/-!
One simplification round, `SimplifyCFGOpt::simplifyOnceImpl`
(SimplifyCFG.cpp:6729-6801).  Its very first action, before any other
rule, is dead-block elimination:

    if ((pred_empty(BB) && BB != &BB->getParent()->getEntryBlock()) ||
        BB->getSinglePredecessor() == BB) {
      DeleteDeadBlock(BB, DTU);
      return true;
    }

Only afterwards are the remaining rules tried.  The remaining rules are
abstracted behind a parameter `rest`; an explicit trace of attempted
rule groups makes "before any other rule" provable. -/

/-- A basic block for the round model: its predecessor edge list and the
instructions it owns. -/
structure SBlock where
  preds : List Nat
  insts : List Nat
deriving DecidableEq, Repr

/-- A function: the entry block id and the ordered block list. -/
structure SFunc where
  entry : Nat
  blocks : List (Nat × SBlock)
deriving DecidableEq, Repr

/-- Rule groups attempted by one round, in order. -/
inductive SRule where
  | deadBlockElim
  | otherRules
deriving DecidableEq, Repr

/-- Look a block up by id. -/
def lookupBlock (f : SFunc) (bid : Nat) : Option SBlock :=
  (f.blocks.find? (fun p => p.1 = bid)).map Prod.snd

/-- The dead-block test of SimplifyCFG.cpp:6736-6737:
`pred_empty(BB) && BB != entry`, or `BB->getSinglePredecessor() == BB`
(exactly one predecessor edge and it comes from the block itself). -/
def deadBlockCond (f : SFunc) (bid : Nat) (b : SBlock) : Bool :=
  (b.preds.isEmpty && bid != f.entry) || b.preds == [bid]

/-- `DeleteDeadBlock(BB, DTU)`: the block disappears from the function
together with the instructions it owns, and every surviving block loses
its predecessor edges from `BB` (`removePredecessor` on each successor
repairs the PHIs, as modelled by `removeIncomingValue` above). -/
def deleteDeadBlock (f : SFunc) (bid : Nat) : SFunc :=
  { entry := f.entry
    blocks := (f.blocks.filter (fun p => p.1 != bid)).map
      (fun p => (p.1, { preds := p.2.preds.filter (fun q => q != bid)
                        insts := p.2.insts })) }

/-- `SimplifyCFGOpt::simplifyOnceImpl`, with the rules after dead-block
elimination abstracted as `rest`: the dead-block test runs first,
unconditionally, and on success the round returns `true` at once; the
returned trace records which rule groups were attempted. -/
def simplifyOnceImpl (rest : SFunc → Nat → SFunc × Bool)
    (f : SFunc) (bid : Nat) : SFunc × Bool × List SRule :=
  match lookupBlock f bid with
  | none => (f, false, [])
  | some b =>
    if deadBlockCond f bid b then
      (deleteDeadBlock f bid, true, [SRule.deadBlockElim])
    else
      let r := rest f bid
      (r.1, r.2, [SRule.deadBlockElim, SRule.otherRules])

/-- C3: dead-block elimination is the first rule tried, unconditionally.
For a block with zero predecessors that is not the entry, or whose sole
predecessor is itself, one simplification round deletes the block (it is
gone from the function, and with it the instructions it owned), reports
`changed = true`, and attempts no other rule; the block count strictly
decreases and no surviving block keeps a predecessor edge from the
deleted block. -/
theorem dead_block_eliminated_first (rest : SFunc → Nat → SFunc × Bool)
    (f : SFunc) (bid : Nat) (b : SBlock)
    (hb : lookupBlock f bid = some b)
    (hdead : deadBlockCond f bid b = true) :
    simplifyOnceImpl rest f bid = (deleteDeadBlock f bid, true, [SRule.deadBlockElim]) ∧
    lookupBlock (deleteDeadBlock f bid) bid = none ∧
    (deleteDeadBlock f bid).blocks.length < f.blocks.length ∧
    (∀ p ∈ (deleteDeadBlock f bid).blocks, bid ∉ p.2.preds) := by
  refine ⟨?_, ?_, ?_, ?_⟩
  · simp [simplifyOnceImpl, hb, hdead]
  · unfold lookupBlock deleteDeadBlock
    rw [List.find?_eq_none.2, Option.map_none']
    intro p hp
    simp only [List.mem_map, List.mem_filter] at hp
    obtain ⟨q, ⟨_, hq⟩, rfl⟩ := hp
    simpa using hq
  · unfold deleteDeadBlock
    simp only [List.length_map]
    apply List.length_filter_lt_length_iff_exists.2
    obtain ⟨p, hfind⟩ := Option.map_eq_some'.1 hb
    refine ⟨p, List.mem_of_find?_eq_some hfind.1, ?_⟩
    have := List.find?_some hfind.1
    simp only [decide_eq_true_eq] at this
    simp [this]
  · intro p hp
    unfold deleteDeadBlock at hp
    simp only [List.mem_map, List.mem_filter] at hp
    obtain ⟨q, _, rfl⟩ := hp
    simp

/-- Witness for `dead_block_eliminated_first`: a function with entry
block `0` and a predecessor-less block `3` holding one instruction; the
round deletes block `3` first and the block count drops. -/
theorem dead_block_eliminated_first_witness :
    simplifyOnceImpl (fun f _ => (f, false))
        ⟨0, [(0, ⟨[], [1, 2]⟩), (3, ⟨[], [5]⟩)]⟩ 3 =
      (deleteDeadBlock ⟨0, [(0, ⟨[], [1, 2]⟩), (3, ⟨[], [5]⟩)]⟩ 3, true,
        [SRule.deadBlockElim]) ∧
    (deleteDeadBlock ⟨0, [(0, ⟨[], [1, 2]⟩), (3, ⟨[], [5]⟩)]⟩ 3).blocks.length <
      (SFunc.blocks ⟨0, [(0, ⟨[], [1, 2]⟩), (3, ⟨[], [5]⟩)]⟩).length :=
  ⟨(dead_block_eliminated_first (fun f _ => (f, false))
      ⟨0, [(0, ⟨[], [1, 2]⟩), (3, ⟨[], [5]⟩)]⟩ 3 ⟨[], [5]⟩ (by decide) (by decide)).1,
   (dead_block_eliminated_first (fun f _ => (f, false))
      ⟨0, [(0, ⟨[], [1, 2]⟩), (3, ⟨[], [5]⟩)]⟩ 3 ⟨[], [5]⟩ (by decide) (by decide)).2.2.1⟩

/-!
Single-instruction speculation, `SimplifyCFGOpt::SpeculativelyExecuteBB`
(SimplifyCFG.cpp:2349-2526), for the triangle

    BB:     ...; br cond, ThenBB/EndBB (according to Invert)
    ThenBB: <instructions>; br EndBB
    EndBB:  phis ...

SSA values are modelled by `SVal` so that the selects the rule creates
are visible structurally.  An instruction is modelled by the attributes
the rule queries about it: the `isa` classifications, the
`isSafeToSpeculativelyExecute` oracle, the `isSafeToSpeculateStore`
result (non-`none` only for a store whose hoisting is covered by the
store-to-same-address special case), the store's value operand, and the
`computeSpeculationCost` result.  Constants below use the source's
defaults: `PHINodeFoldingThreshold = 2` (SimplifyCFG.cpp:105) and
`TargetTransformInfo::TCC_Basic = 1`, so the speculation budget is `2`
and the constant-expression bound is `4`. -/

/-- An SSA value: either a pre-existing value or a select created by the
rewrite (`select cond, tv, fv`). -/
inductive SVal where
  | v (id : Nat)
  | selectV (cond : Nat) (tv fv : SVal)
deriving DecidableEq, Repr

/-- An instruction of `ThenBB`, by the attributes
`SpeculativelyExecuteBB` inspects. -/
structure SInstr where
  isDbg : Bool := false
  isProbe : Bool := false
  safeToSpec : Bool := false
  specStoreValue : Option SVal := none
  storeValueOperand : SVal := SVal.v 0
  cost : Nat := 0
deriving DecidableEq, Repr

/-- A PHI node of `EndBB`, by the attributes the rule inspects: the
incoming values from `BB` (`origV`) and from `ThenBB` (`thenV`), the
select cost `TTI.getCmpSelInstrCost` would report, the
`passingValueIsAlwaysUndefined` verdicts, and, when an incoming value is
a `ConstantExpr`, its (`isSafeToSpeculativelyExecute`, cost) pair. -/
structure SPhi where
  origV : SVal
  thenV : SVal
  selCost : Nat := 0
  origAlwaysUndef : Bool := false
  thenAlwaysUndef : Bool := false
  origCE : Option (Bool × Nat) := none
  thenCE : Option (Bool × Nat) := none
deriving DecidableEq, Repr

/-- The scan loop of SimplifyCFG.cpp:2383-2429 over `ThenBB`'s
non-terminator instructions.  Debug intrinsics and pseudo probes are
skipped; every other instruction bumps `SpeculatedInstructions` (`n`)
and more than one aborts; an unsafe instruction aborts unless
`HoistCondStores` is on and `isSafeToSpeculateStore` found a value
(`sv`); the cost bound applies only while no store value is recorded;
once a store value is recorded the instruction is remembered as the
speculated store (`ss`). -/
def scanThenBlock (hoistCondStores : Bool) :
    List SInstr → Nat → Option SVal → Option SInstr →
    Option (Nat × Option SVal × Option SInstr)
  | [], n, sv, ss => some (n, sv, ss)
  | i :: rest, n, sv, ss =>
    if i.isDbg then scanThenBlock hoistCondStores rest n sv ss
    else if i.isProbe then scanThenBlock hoistCondStores rest n sv ss
    else
      if 1 < n + 1 then none
      else
        let sv1 := if !i.safeToSpec && hoistCondStores then i.specStoreValue else sv
        if !i.safeToSpec && !(hoistCondStores && sv1.isSome) then none
        else if sv1.isNone && decide (2 < i.cost) then none
        else scanThenBlock hoistCondStores rest (n + 1) sv1
          (if sv1.isSome then some i else ss)

/-- The sink-candidate accounting of SimplifyCFG.cpp:2433-2443: each of
the `k` instructions of `BB` whose uses all sit in `ThenBB` bumps
`SpeculatedInstructions` once, aborting as soon as it exceeds one. -/
def addSinkCandidateCosts : Nat → Nat → Option Nat
  | n, 0 => some n
  | n, k + 1 => if 1 < n + 1 then none else addSinkCandidateCosts (n + 1) k

/-- `validateAndCostRequiredSelects` (SimplifyCFG.cpp:2256-2311): walks
`EndBB`'s PHIs, skipping the trivial ones, accumulating the select cost,
rejecting PHIs that pass an always-undefined value or an unsafe or too
expensive `ConstantExpr`, and charging each `ConstantExpr`-carrying PHI
against the one-instruction budget.  Returns
(`HaveRewritablePHIs` or `false` on rejection, final
`SpeculatedInstructions`, accumulated cost). -/
def validateAndCostRequiredSelects :
    List SPhi → Nat → Nat → Bool → Bool × Nat × Nat
  | [], n, cost, hav => (hav, n, cost)
  | p :: rest, n, cost, hav =>
    if p.thenV = p.origV then validateAndCostRequiredSelects rest n cost hav
    else
      let cost1 := cost + p.selCost
      if p.origAlwaysUndef || p.thenAlwaysUndef then (false, n, cost1)
      else if p.origCE.isNone && p.thenCE.isNone then
        validateAndCostRequiredSelects rest n cost1 true
      else if (p.thenCE.elim false (fun ce => !ce.1)) ||
              (p.origCE.elim false (fun ce => !ce.1)) then (false, n, cost1)
      else if decide (4 < (p.origCE.elim 0 Prod.snd) + (p.thenCE.elim 0 Prod.snd)) then
        (false, n, cost1)
      else if 1 < n + 1 then (false, n + 1, cost1)
      else validateAndCostRequiredSelects rest (n + 1) cost1 true

/-- The input of `SpeculativelyExecuteBB`: the branch condition (its
identity and whether it is an `FCmpInst`), whether `ThenBB` sits on the
false edge (`Invert`), `BB`'s non-terminator instructions, `ThenBB`'s
non-terminator instructions, `EndBB`'s PHIs, and the number of sink
candidates found by the operand scan. -/
structure SpecState where
  brCond : Nat
  brCondIsFCmp : Bool
  invert : Bool
  bbInsts : List SInstr
  thenInsts : List SInstr
  endPhis : List SPhi
  sinkCandidates : Nat
deriving DecidableEq, Repr

/-- The select built for a differing PHI (SimplifyCFG.cpp:2508-2512):
true value from `ThenBB`, false value the original, swapped when the
branch edges were inverted. -/
def specSelectFor (s : SpecState) (p : SPhi) : SVal :=
  if s.invert then SVal.selectV s.brCond p.origV p.thenV
  else SVal.selectV s.brCond p.thenV p.origV

/-- The result of a successful speculation: `BB`'s original
instructions, the hoisted `ThenBB` instructions (with the speculated
store's value operand replaced by its select), the store select if one
was built, the selects built for the differing PHIs, the rewritten PHIs,
and `ThenBB`'s remaining non-terminator instructions (all were spliced
out; the debug intrinsics were erased). -/
structure SpecOut where
  bbInsts : List SInstr
  hoisted : List SInstr
  storeSelect : Option SVal
  phiSelects : List SVal
  endPhis : List SPhi
  thenInsts : List SInstr
deriving DecidableEq, Repr

/-- `SimplifyCFGOpt::SpeculativelyExecuteBB` (SimplifyCFG.cpp:2349-2526):
`none` models `return false` (no mutation); `some` models `return true`
together with the performed edit. -/
def speculativelyExecuteBB (hoistCondStores : Bool) (s : SpecState) :
    Option SpecOut :=
  if s.brCondIsFCmp then none
  else
    match scanThenBlock hoistCondStores s.thenInsts 0 none none with
    | none => none
    | some (n, sv, ss) =>
      match addSinkCandidateCosts n s.sinkCandidates with
      | none => none
      | some n1 =>
        match validateAndCostRequiredSelects s.endPhis n1 0 false with
        | (ok, _, cost) =>
          if !(ss.isSome || ok) || decide (2 < cost) then none
          else
            let storeSel : Option SVal := sv.map (fun fv =>
              let tv := ss.elim (SVal.v 0) SInstr.storeValueOperand
              if s.invert then SVal.selectV s.brCond fv tv
              else SVal.selectV s.brCond tv fv)
            some
              { bbInsts := s.bbInsts
                hoisted := (s.thenInsts.filter (fun i => !i.isDbg)).map
                  (fun i => if ss = some i then
                      { i with storeValueOperand := storeSel.getD i.storeValueOperand }
                    else i)
                storeSelect := storeSel
                phiSelects := (s.endPhis.filter
                    (fun p => !(p.origV == p.thenV))).map (specSelectFor s)
                endPhis := s.endPhis.map (fun p =>
                  if p.origV = p.thenV then p
                  else { p with origV := specSelectFor s p
                                thenV := specSelectFor s p })
                thenInsts := [] }

/-- Instruction count of the three-block region before the rewrite:
`BB`'s and `ThenBB`'s non-terminator instructions, `EndBB`'s PHIs, and
the three terminators. -/
def specInstCountBefore (s : SpecState) : Nat :=
  s.bbInsts.length + s.thenInsts.length + s.endPhis.length + 3

/-- Instruction count of the region after the rewrite: `BB` now also
holds the hoisted instructions and the created selects; the PHIs stay in
`EndBB`; the three terminators are untouched. -/
def specInstCountAfter (o : SpecOut) : Nat :=
  o.bbInsts.length + o.hoisted.length + o.storeSelect.toList.length +
    o.phiSelects.length + o.endPhis.length + o.thenInsts.length + 3

/-- Block count of the region before the rewrite: `BB`, `ThenBB`,
`EndBB`. -/
def specBlockCountBefore (_ : SpecState) : Nat := 3

/-- Block count after the rewrite: `SpeculativelyExecuteBB` only splices
instructions between blocks; it erases no `BasicBlock`, so the region
still holds `BB`, the (now empty) `ThenBB`, and `EndBB`. -/
def specBlockCountAfter (_ : SpecOut) : Nat := 3

/-- Edge count before: `BB → ThenBB`, `BB → EndBB`, `ThenBB → EndBB`. -/
def specEdgeCountBefore (_ : SpecState) : Nat := 3

/-- Edge count after: the rule rewrites no terminator, so the three
edges survive the rewrite unchanged. -/
def specEdgeCountAfter (_ : SpecOut) : Nat := 3

/-- C10: speculation never fires when the branch condition is a
floating-point comparison: `SpeculativelyExecuteBB` returns `false`
without mutating anything (`if (isa<FCmpInst>(BrCond)) return false;`,
SimplifyCFG.cpp:2352-2354), regardless of the contents of the `Then`
block. -/
theorem speculation_rejects_fcmp_condition (hoistCondStores : Bool)
    (s : SpecState) (h : s.brCondIsFCmp = true) :
    speculativelyExecuteBB hoistCondStores s = none := by
  unfold speculativelyExecuteBB
  rw [h]
  simp

/-- Witness for `speculation_rejects_fcmp_condition`: an `fcmp`-guarded
branch whose `Then` block holds a single cheap safe instruction and
whose `End` block has a differing PHI — exactly the shape speculation
otherwise accepts — is still rejected. -/
theorem speculation_rejects_fcmp_condition_witness :
    speculativelyExecuteBB true
      ⟨1, true, false, [], [⟨false, false, true, none, SVal.v 0, 1⟩],
        [⟨SVal.v 2, SVal.v 3, 1, false, false, none, none⟩], 0⟩ = none :=
  speculation_rejects_fcmp_condition true
    ⟨1, true, false, [], [⟨false, false, true, none, SVal.v 0, 1⟩],
      [⟨SVal.v 2, SVal.v 3, 1, false, false, none, none⟩], 0⟩ rfl

/-- A `Then` block with one safe non-free instruction plus one store
covered by the store-to-same-address special case — the shape claim C4
says always fires. -/
def storePlusInstrState : SpecState :=
  ⟨1, false, false, [],
    [⟨false, false, true, none, SVal.v 0, 1⟩,
     ⟨false, false, false, some (SVal.v 7), SVal.v 8, 1⟩],
    [⟨SVal.v 2, SVal.v 8, 1, false, false, none, none⟩], 0⟩

/-- The same triangle with the store alone in the `Then` block. -/
def storeOnlyState : SpecState :=
  ⟨1, false, false, [],
    [⟨false, false, false, some (SVal.v 7), SVal.v 8, 1⟩],
    [⟨SVal.v 2, SVal.v 8, 1, false, false, none, none⟩], 0⟩

/-- C4 counterexample: a `Then` block holding one non-free safe
instruction *plus* one store (with the store special case applicable) is
rejected — the store counts toward the same one-instruction budget
(`++SpeculatedInstructions; if (SpeculatedInstructions > 1) return
false;` runs for the store, SimplifyCFG.cpp:2401-2404) — while the store
alone is accepted.  So "at most one non-free instruction plus possibly
one store" does not fire as claimed. -/
theorem speculation_store_budget_counterexample :
    speculativelyExecuteBB true storePlusInstrState = none ∧
    (speculativelyExecuteBB true storeOnlyState).isSome = true := by
  decide

/-- `OrigV != ThenV` on a PHI of `EndBB`: the rewrite builds a select
exactly for these (SimplifyCFG.cpp:2500-2513). -/
def phiDiffers (p : SPhi) : Bool := !(p.origV == p.thenV)

theorem validate_simple_phis (phis : List SPhi)
    (h : ∀ p ∈ phis, p.origAlwaysUndef = false ∧ p.thenAlwaysUndef = false ∧
      p.origCE = none ∧ p.thenCE = none) :
    ∀ (n cost : Nat) (hav : Bool),
      validateAndCostRequiredSelects phis n cost hav =
        (hav || phis.any phiDiffers, n,
          cost + ((phis.filter phiDiffers).map SPhi.selCost).sum) := by
  induction phis with
  | nil => intro n cost hav; simp [validateAndCostRequiredSelects]
  | cons p rest ih =>
    intro n cost hav
    obtain ⟨h1, h2, h3, h4⟩ := h p (List.mem_cons_self p rest)
    have hrest := fun q hq => h q (List.mem_cons_of_mem p hq)
    by_cases hd : p.thenV = p.origV
    · have hdif : phiDiffers p = false := by
        simp [phiDiffers, hd.symm]
      simp [validateAndCostRequiredSelects, hd, hdif, ih hrest]
    · have hdif : phiDiffers p = true := by
        simp [phiDiffers]
        exact fun he => hd he.symm
      simp [validateAndCostRequiredSelects, hd, hdif, h1, h2, h3, h4,
        ih hrest, Nat.add_assoc]

/-- C4 (amended): speculation fires for `br cond, Then, End` when `Then`
has exactly one successor and exactly one counted (non-debug, non-probe)
instruction in total — a store is not admitted in addition to that
instruction; it can only *be* that instruction via the store special
case — provided the instruction is safe to speculate and within the cost
budget, no sink candidate charges the budget, and at least one PHI of
`End` differs on the two paths (with select costs within budget): the
instruction is hoisted unchanged into the branch block and each
differing PHI has both incoming values replaced by
`select(cond, thenValue, origValue)` (operands swapped when `Then` is on
the false edge). -/
theorem speculation_single_safe_instruction_fires
    (cond : Nat) (invert : Bool) (bbInsts : List SInstr)
    (i : SInstr) (phis : List SPhi)
    (hdbg : i.isDbg = false) (hprobe : i.isProbe = false)
    (hsafe : i.safeToSpec = true) (hcost : i.cost ≤ 2)
    (hphis : ∀ p ∈ phis, p.origAlwaysUndef = false ∧ p.thenAlwaysUndef = false ∧
      p.origCE = none ∧ p.thenCE = none)
    (hdiff : phis.any phiDiffers = true)
    (hbudget : ((phis.filter phiDiffers).map SPhi.selCost).sum ≤ 2) :
    speculativelyExecuteBB true ⟨cond, false, invert, bbInsts, [i], phis, 0⟩ =
      some
        { bbInsts := bbInsts
          hoisted := [i]
          storeSelect := none
          phiSelects := (phis.filter phiDiffers).map
            (specSelectFor ⟨cond, false, invert, bbInsts, [i], phis, 0⟩)
          endPhis := phis.map (fun p =>
            if p.origV = p.thenV then p
            else { p with
                    origV := specSelectFor ⟨cond, false, invert, bbInsts, [i], phis, 0⟩ p
                    thenV := specSelectFor ⟨cond, false, invert, bbInsts, [i], phis, 0⟩ p })
          thenInsts := [] } := by
  have hc : decide (2 < i.cost) = false := by
    simp [Nat.not_lt.2 hcost]
  have hscan : scanThenBlock true [i] 0 none none = some (1, none, none) := by
    simp [scanThenBlock, hdbg, hprobe, hsafe, hc]
  have hval := validate_simple_phis phis hphis 1 0 false
  have hb : decide (2 < 0 + ((phis.filter phiDiffers).map SPhi.selCost).sum) = false := by
    simp
    omega
  simp only [speculativelyExecuteBB, hscan, addSinkCandidateCosts, hval, hdiff]
  simp [hb, hdbg]
  exact ⟨hbudget, rfl⟩

/-- Witness for `speculation_single_safe_instruction_fires`: a `Then`
block with one cheap safe instruction and an `End` PHI whose incoming
values differ; speculation fires, hoists the instruction, and rewrites
the PHI to a select. -/
theorem speculation_single_safe_instruction_fires_witness :
    speculativelyExecuteBB true
      ⟨1, false, false, [], [⟨false, false, true, none, SVal.v 0, 1⟩],
        [⟨SVal.v 2, SVal.v 3, 1, false, false, none, none⟩], 0⟩ =
      some
        { bbInsts := []
          hoisted := [⟨false, false, true, none, SVal.v 0, 1⟩]
          storeSelect := none
          phiSelects := [SVal.selectV 1 (SVal.v 3) (SVal.v 2)]
          endPhis := [⟨SVal.selectV 1 (SVal.v 3) (SVal.v 2),
            SVal.selectV 1 (SVal.v 3) (SVal.v 2), 1, false, false, none, none⟩]
          thenInsts := [] } := by
  have h := speculation_single_safe_instruction_fires 1 false []
    ⟨false, false, true, none, SVal.v 0, 1⟩
    [⟨SVal.v 2, SVal.v 3, 1, false, false, none, none⟩]
    rfl rfl rfl (by decide) (by decide) (by decide) (by decide)
  simpa [specSelectFor] using h

/-- A speculation triangle on which the rule fires: empty `BB`, a single
safe instruction in `ThenBB`, one differing PHI in `EndBB`. -/
def specFiringState : SpecState :=
  ⟨4, false, false, [], [⟨false, false, true, none, SVal.v 0, 1⟩],
    [⟨SVal.v 5, SVal.v 6, 1, false, false, none, none⟩], 0⟩

/-- The edit `SpeculativelyExecuteBB` performs on `specFiringState`. -/
def specFiringOut : SpecOut :=
  { bbInsts := []
    hoisted := [⟨false, false, true, none, SVal.v 0, 1⟩]
    storeSelect := none
    phiSelects := [SVal.selectV 4 (SVal.v 6) (SVal.v 5)]
    endPhis := [⟨SVal.selectV 4 (SVal.v 6) (SVal.v 5),
      SVal.selectV 4 (SVal.v 6) (SVal.v 5), 1, false, false, none, none⟩]
    thenInsts := [] }

/-- C2 counterexample: a rule firing that strictly reduces none of the
three named measures.  `SpeculativelyExecuteBB` fires (reports changed)
on `specFiringState`, yet the block count and the edge count of the
rewritten region are unchanged and the instruction count strictly
*increases* (a select was created; the hoisted instruction only moved).
So it is not the case that every rule firing strictly reduces block
count, edge count, or instruction count. -/
theorem speculation_firing_reduces_no_measure :
    speculativelyExecuteBB true specFiringState = some specFiringOut ∧
    specBlockCountAfter specFiringOut = specBlockCountBefore specFiringState ∧
    specEdgeCountAfter specFiringOut = specEdgeCountBefore specFiringState ∧
    specInstCountBefore specFiringState < specInstCountAfter specFiringOut := by
  decide

/-!
Dominator-tree-oracle update batches.  A rewrite rule accumulates
`DominatorTree::UpdateType` commands in a local `Updates` vector and
flushes them with one `DTU->applyUpdates(Updates)` call per firing. -/

/-- One oracle update command: insert or delete the edge
`src → dst`. -/
inductive DTUpdate where
  | insert (src dst : Nat)
  | delete (src dst : Nat)
deriving DecidableEq, Repr

/-- Is the command an edge delete? -/
def DTUpdate.isDelete : DTUpdate → Bool
  | .delete _ _ => true
  | .insert _ _ => false

/-- All Insert commands of the batch are recorded before any Delete
command: once a delete appears, only deletes follow. -/
def insertsBeforeDeletes : List DTUpdate → Bool
  | [] => true
  | u :: rest =>
    if u.isDelete then rest.all DTUpdate.isDelete else insertsBeforeDeletes rest

/-- The batch `HoistThenElseCodeToIf` records for one firing
(SimplifyCFG.cpp:1614-1629): an Insert `BIParent → succ` for every
successor of `BB1`, then a Delete `BIParent → succ` for every successor
of the erased branch `BI`. -/
def hoistThenElseUpdates (biParent : Nat) (succsBB1 succsBI : List Nat) :
    List DTUpdate :=
  succsBB1.map (DTUpdate.insert biParent) ++ succsBI.map (DTUpdate.delete biParent)

/-- The batch `PerformValueComparisonIntoPredecessorFolding` records for
one firing (SimplifyCFG.cpp:1182-1325), in push order:
the Delete `Pred → PredDefault` of line 1185 — which sits inside the
`PredDefault == BB` branch yet is guarded by `PredDefault != BB`, so its
guard `predDefault = bb ∧ predDefault ≠ bbDefault ∧ predDefault ≠ bb` is
kept verbatim from the source even though it can never hold — then one
Insert `Pred → succ` per new successor not already a successor of
`Pred`, then (when an infinite-loop block was created) the Inserts
`InfLoop → InfLoop` and `Pred → InfLoop`, and finally the Delete
`Pred → BB`. -/
def performValueComparisonUpdates (pred bb predDefault bbDefault : Nat)
    (newSuccessorInserts : List Nat) (infLoopBlock : Option Nat) :
    List DTUpdate :=
  (if predDefault = bb ∧ predDefault ≠ bbDefault ∧ predDefault ≠ bb then
    [DTUpdate.delete pred predDefault]
  else [])
  ++ newSuccessorInserts.map (DTUpdate.insert pred)
  ++ (match infLoopBlock with
      | some l => [DTUpdate.insert l l, DTUpdate.insert pred l]
      | none => [])
  ++ [DTUpdate.delete pred bb]

/-- The batch `removeEmptyCleanup` records for one firing with a live
unwind destination (SimplifyCFG.cpp:4536-4555): the loop over the
cleanup pad's predecessors pushes, for each `PredBB` in turn, the pair
Insert `PredBB → UnwindDest` then Delete `PredBB → BB`, and the whole
vector is flushed by one `DTU->applyUpdates(Updates)` after the loop. -/
def removeEmptyCleanupUpdates : List Nat → Nat → Nat → List DTUpdate
  | [], _, _ => []
  | p :: rest, bb, unwindDest =>
    DTUpdate.insert p unwindDest :: DTUpdate.delete p bb ::
      removeEmptyCleanupUpdates rest bb unwindDest

theorem insertsBeforeDeletes_map_insert_append (p : Nat) (xs : List Nat)
    (tail : List DTUpdate) (h : insertsBeforeDeletes tail = true) :
    insertsBeforeDeletes (xs.map (DTUpdate.insert p) ++ tail) = true := by
  induction xs with
  | nil => simpa using h
  | cons x rest ih => simpa [insertsBeforeDeletes, DTUpdate.isDelete] using ih

theorem insertsBeforeDeletes_map_delete (p : Nat) (xs : List Nat) :
    insertsBeforeDeletes (xs.map (DTUpdate.delete p)) = true := by
  cases xs with
  | nil => rfl
  | cons x rest => simp [insertsBeforeDeletes, DTUpdate.isDelete, List.all_eq_true]

/-- C5 (amended): for the two rewrite rules the claim cites — but not
for every rule, see `cleanup_batch_delete_before_insert_counterexample`
— the dominator-tree-oracle batch of one firing records all edge Insert
commands before any edge Delete command: in `HoistThenElseCodeToIf` the
Inserts are pushed before the Deletes, and in
`PerformValueComparisonIntoPredecessorFolding` the only Delete push that
could precede an Insert is dead (its guard requires `PredDefault == BB`
and `PredDefault != BB` at once), leaving every Insert ahead of the
single final Delete `Pred → BB`. -/
theorem dtu_inserts_recorded_before_deletes :
    (∀ (biParent : Nat) (succsBB1 succsBI : List Nat),
      insertsBeforeDeletes (hoistThenElseUpdates biParent succsBB1 succsBI) = true) ∧
    (∀ (pred bb predDefault bbDefault : Nat)
      (newSuccessorInserts : List Nat) (infLoopBlock : Option Nat),
      insertsBeforeDeletes (performValueComparisonUpdates pred bb predDefault
        bbDefault newSuccessorInserts infLoopBlock) = true) := by
  constructor
  · intro biParent succsBB1 succsBI
    exact insertsBeforeDeletes_map_insert_append biParent succsBB1 _
      (insertsBeforeDeletes_map_delete biParent succsBI)
  · intro pred bb predDefault bbDefault newSuccessorInserts infLoopBlock
    have hguard : ¬(predDefault = bb ∧ predDefault ≠ bbDefault ∧ predDefault ≠ bb) := by
      rintro ⟨h1, -, h3⟩; exact h3 h1
    unfold performValueComparisonUpdates
    rw [if_neg hguard]
    simp only [List.nil_append]
    rw [List.append_assoc]
    apply insertsBeforeDeletes_map_insert_append
    cases infLoopBlock with
    | none => rfl
    | some l => rfl

/-- C5 counterexample: not every rewrite-rule firing records all Inserts
before any Delete in its batch.  `removeEmptyCleanup`, firing on a
cleanup pad (block 5) with unwind destination 6 and the two predecessors
1 and 2, flushes the single batch
Insert 1→6, Delete 1→5, Insert 2→6, Delete 2→5 — the Delete of edge
`1 → 5` is recorded before the Insert of edge `2 → 6`. -/
theorem cleanup_batch_delete_before_insert_counterexample :
    removeEmptyCleanupUpdates [1, 2] 5 6 =
      [DTUpdate.insert 1 6, DTUpdate.delete 1 5,
       DTUpdate.insert 2 6, DTUpdate.delete 2 5] ∧
    insertsBeforeDeletes (removeEmptyCleanupUpdates [1, 2] 5 6) = false := by
  decide

/-!
Switch-to-select conversion, `ConvertTwoCaseSwitch` and `switchToSelect`
(SimplifyCFG.cpp:5416-5517).  The replacement code the rule builds is an
expression over the switch condition: `icmp eq` comparisons against case
constants (possibly `or`-ed) selecting among the PHI's constant
results. -/

/-- The condition of a built select: `icmp eq cond, c`, or an `or` of
two such comparisons (the degenerate two-cases-one-value form). -/
inductive CmpExpr where
  | eqConst (c : Int)
  | orE (a b : CmpExpr)
deriving DecidableEq, Repr

/-- The replacement expression: a constant result or a select. -/
inductive SelExpr (α : Type) where
  | lit (v : α)
  | sel (c : CmpExpr) (t f : SelExpr α)
deriving DecidableEq, Repr

/-- Evaluate a comparison at a concrete switch-condition value. -/
def evalCmp (x : Int) : CmpExpr → Bool
  | .eqConst c => decide (x = c)
  | .orE a b => evalCmp x a || evalCmp x b

/-- Evaluate the replacement at a concrete switch-condition value. -/
def evalSel {α : Type} (x : Int) : SelExpr α → α
  | .lit v => v
  | .sel c t f => if evalCmp x c then evalSel x t else evalSel x f

/-- Number of select instructions in the replacement. -/
def countSelects {α : Type} : SelExpr α → Nat
  | .lit _ => 0
  | .sel _ t f => 1 + countSelects t + countSelects f

/-- `ConvertTwoCaseSwitch` (SimplifyCFG.cpp:5416-5452): for a result
vector of two single-case results, build
`select(cond == case0, r0, select(cond == case1, r1, default))` (inner
select only when a default result can trigger); for one result reached
by two cases with a default, build
`select((cond == caseA) | (cond == caseB), r, default)`; otherwise the
switch is not converted (`nullptr`). -/
def convertTwoCaseSwitch {α : Type} (resultVector : List (α × List Int))
    (defaultResult : Option α) : Option (SelExpr α) :=
  match resultVector with
  | [(r0, [c0]), (r1, [c1])] =>
    some (match defaultResult with
      | some d => SelExpr.sel (CmpExpr.eqConst c0) (SelExpr.lit r0)
          (SelExpr.sel (CmpExpr.eqConst c1) (SelExpr.lit r1) (SelExpr.lit d))
      | none => SelExpr.sel (CmpExpr.eqConst c0) (SelExpr.lit r0) (SelExpr.lit r1))
  | [(r0, [c0, c1])] =>
    match defaultResult with
    | some d => some (SelExpr.sel (CmpExpr.orE (CmpExpr.eqConst c0)
        (CmpExpr.eqConst c1)) (SelExpr.lit r0) (SelExpr.lit d))
    | none => none
  | _ => none

/-- C6: the switch `{5 → "a", 7 → "b"}` with default `"c"` whose only
effect is one successor PHI collapses to exactly two chained selects,
`select(cond == 5, "a", select(cond == 7, "b", "c"))`, and evaluating
the replacement at condition values 5, 7 and 9 yields `"a"`, `"b"` and
`"c"` respectively. -/
theorem switch_to_select_two_case_scenario :
    convertTwoCaseSwitch [("a", [5]), ("b", [7])] (some "c") =
      some (SelExpr.sel (CmpExpr.eqConst 5) (SelExpr.lit "a")
        (SelExpr.sel (CmpExpr.eqConst 7) (SelExpr.lit "b") (SelExpr.lit "c"))) ∧
    countSelects (SelExpr.sel (CmpExpr.eqConst 5) (SelExpr.lit "a")
      (SelExpr.sel (CmpExpr.eqConst 7) (SelExpr.lit "b") (SelExpr.lit "c"))) = 2 ∧
    evalSel 5 (SelExpr.sel (CmpExpr.eqConst 5) (SelExpr.lit "a")
      (SelExpr.sel (CmpExpr.eqConst 7) (SelExpr.lit "b") (SelExpr.lit "c"))) = "a" ∧
    evalSel 7 (SelExpr.sel (CmpExpr.eqConst 5) (SelExpr.lit "a")
      (SelExpr.sel (CmpExpr.eqConst 7) (SelExpr.lit "b") (SelExpr.lit "c"))) = "b" ∧
    evalSel 9 (SelExpr.sel (CmpExpr.eqConst 5) (SelExpr.lit "a")
      (SelExpr.sel (CmpExpr.eqConst 7) (SelExpr.lit "b") (SelExpr.lit "c"))) = "c" :=
  ⟨rfl, rfl, rfl, rfl, rfl⟩

/-!
The lookup-table encoder, `SwitchLookupTable::SwitchLookupTable`
(SimplifyCFG.cpp:5580-5695).  A table value is an LLVM constant: a
`ConstantInt`, some other constant (e.g. a pointer or a `ConstantExpr`,
which `dyn_cast<ConstantInt>` rejects), or `undef`; LLVM constants are
uniqued, so pointer equality in the source is structural equality here.
The `DataLayout::fitsInLegalInteger` query is an injected oracle
`fits : Nat → Bool` on bit widths. -/

/-- A constant stored in the table. -/
inductive TblConst where
  | intC (v : Int)
  | otherC (id : Nat)
  | undefC
deriving DecidableEq, Repr

/-- The four representations, in the order the constructor tries
them. -/
inductive TableKind where
  | singleValue
  | linearMap
  | bitMap
  | array
deriving DecidableEq, Repr

/-- The table-contents array of size `TableSize`: each case value lands
at index `CaseVal - Offset` (SimplifyCFG.cpp:5596-5606); `none` marks a
hole. -/
def buildTableContents (tableSize : Nat) (offset : Int)
    (values : List (Int × TblConst)) : List (Option TblConst) :=
  values.foldl (fun acc cv => acc.set (cv.1 - offset).toNat (some cv.2))
    (List.replicate tableSize none)

/-- Hole filling (SimplifyCFG.cpp:5609-5620): every hole receives the
default result (the source asserts a default exists when there are
holes). -/
def fillHoles (contents : List (Option TblConst)) (d : TblConst) :
    List TblConst :=
  contents.map (fun e => e.getD d)

/-- The contents of the lookup table after hole filling. -/
def tableContentsOf (tableSize : Nat) (offset : Int)
    (values : List (Int × TblConst)) (d : TblConst) : List TblConst :=
  fillHoles (buildTableContents tableSize offset values) d

/-- The `SingleValue` computation (SimplifyCFG.cpp:5590-5620):
initialized to the first case result, cleared when a later case result
differs, and cleared by hole filling when the default differs. -/
def tableSingleValue (values : List (Int × TblConst)) (tableSize : Nat)
    (d : TblConst) : Option TblConst :=
  let sv0 := values.head?.map Prod.snd
  let sv1 := values.foldl (fun sv cv => if some cv.2 = sv then sv else none) sv0
  if values.length < tableSize then (if some d = sv1 then sv1 else none) else sv1

/-- The linear-map check (SimplifyCFG.cpp:5629-5661): every table entry
must be a `ConstantInt` and consecutive entries must keep a constant
stride; on success the offset is the first entry and the multiplier the
stride. -/
def linearParams (contents : List TblConst) : Option (Int × Int) :=
  match contents.mapM (fun c => match c with
    | TblConst.intC v => some v
    | _ => none) with
  | none => none
  | some vs =>
    match vs with
    | v0 :: v1 :: rest =>
      let dist := v1 - v0
      if ((v1 :: rest).zip rest).all (fun pr => decide (pr.2 - pr.1 = dist)) then
        some (v0, dist)
      else none
    | _ => none

/-- `SwitchLookupTable::WouldFitInRegister` (SimplifyCFG.cpp:5752-5765):
the element type must be an integer type, the width product must not
overflow `unsigned` (`TableSize >= UINT_MAX / BitWidth` rejects), and
`DL.fitsInLegalInteger(TableSize * BitWidth)` must hold. -/
def wouldFitInRegister (fits : Nat → Bool) (elemIsInt : Bool)
    (elemBits tableSize : Nat) : Bool :=
  elemIsInt && decide (tableSize < 4294967295 / elemBits) &&
    fits (tableSize * elemBits)

/-- The representation the `SwitchLookupTable` constructor chooses, in
its fixed order: `SingleValueKind` when all entries agree, else
`LinearMapKind` when the type is integer and the stride is constant,
else `BitMapKind` when the packed table fits a legal register, else
`ArrayKind` (SimplifyCFG.cpp:5622-5694). -/
def switchLookupTableKind (fits : Nat → Bool) (elemIsInt : Bool)
    (elemBits tableSize : Nat) (offset : Int)
    (values : List (Int × TblConst)) (d : TblConst) : TableKind :=
  if (tableSingleValue values tableSize d).isSome then TableKind.singleValue
  else if elemIsInt &&
      (linearParams (tableContentsOf tableSize offset values d)).isSome then
    TableKind.linearMap
  else if wouldFitInRegister fits elemIsInt elemBits tableSize then
    TableKind.bitMap
  else TableKind.array

/-- The scenario table: 10 cases mapping indices 0..9 to 0,2,4,...,18
(the function `2*x`). -/
def doublingCases : List (Int × TblConst) :=
  (List.range 10).map (fun i => ((i : Int), TblConst.intC (2 * i)))

/-- C7: the encoder tries the representations in the fixed order
SingleValue, then LinearMap, then BitMap (only if the packed table fits
a legal register), then Array; and for the 10-case table `x ↦ 2*x` it
chooses the LinearMap representation — not an Array — on a target whose
legal registers are at most 64 bits wide and 32-bit elements. -/
theorem lookup_table_kind_selection_order :
    (∀ (fits : Nat → Bool) (elemIsInt : Bool) (elemBits tableSize : Nat)
      (offset : Int) (values : List (Int × TblConst)) (d : TblConst),
      ((tableSingleValue values tableSize d).isSome = true →
        switchLookupTableKind fits elemIsInt elemBits tableSize offset values d =
          TableKind.singleValue) ∧
      ((tableSingleValue values tableSize d).isSome = false →
        (elemIsInt &&
          (linearParams (tableContentsOf tableSize offset values d)).isSome) = true →
        switchLookupTableKind fits elemIsInt elemBits tableSize offset values d =
          TableKind.linearMap) ∧
      ((tableSingleValue values tableSize d).isSome = false →
        (elemIsInt &&
          (linearParams (tableContentsOf tableSize offset values d)).isSome) = false →
        wouldFitInRegister fits elemIsInt elemBits tableSize = true →
        switchLookupTableKind fits elemIsInt elemBits tableSize offset values d =
          TableKind.bitMap) ∧
      ((tableSingleValue values tableSize d).isSome = false →
        (elemIsInt &&
          (linearParams (tableContentsOf tableSize offset values d)).isSome) = false →
        wouldFitInRegister fits elemIsInt elemBits tableSize = false →
        switchLookupTableKind fits elemIsInt elemBits tableSize offset values d =
          TableKind.array)) ∧
    switchLookupTableKind (fun w => decide (w ≤ 64)) true 32 10 0
      doublingCases (TblConst.intC 0) = TableKind.linearMap := by
  constructor
  · intro fits elemIsInt elemBits tableSize offset values d
    refine ⟨fun h1 => ?_, fun h1 h2 => ?_, fun h1 h2 h3 => ?_, fun h1 h2 h3 => ?_⟩
    · simp [switchLookupTableKind, h1]
    · simp [switchLookupTableKind, h1, h2]
    · simp [switchLookupTableKind, h1, h2, h3]
    · simp [switchLookupTableKind, h1, h2, h3]
  · decide

/-- Witness for `lookup_table_kind_selection_order`: a three-entry table
with values 1, 2, 4 — neither constant nor of constant stride — packs
into 24 bits, so the encoder picks the BitMap representation via the
third selection clause. -/
theorem lookup_table_kind_selection_order_witness :
    switchLookupTableKind (fun w => decide (w ≤ 64)) true 8 3 0
      [(0, TblConst.intC 1), (1, TblConst.intC 2), (2, TblConst.intC 4)]
      (TblConst.intC 0) = TableKind.bitMap :=
  ((lookup_table_kind_selection_order.1 (fun w => decide (w ≤ 64)) true 8 3 0
    [(0, TblConst.intC 1), (1, TblConst.intC 2), (2, TblConst.intC 4)]
    (TblConst.intC 0)).2.2.1) (by decide) (by decide) (by decide)

/-!
Tail sinking from predecessors, `SinkCommonCodeFromPredecessors`
(SimplifyCFG.cpp:2017-2190).  After the legality scan
(`canSinkInstructions` over the `LockstepReverseIterator`) has
identified the candidate rows — row 0 holds the last non-terminator
instruction of every predecessor, row 1 the one before it, and so on —
the profitability phase decides how many rows are actually sunk.  An
instruction is its id together with the operand values that would need a
PHI (`PHIOperands`); `ProfitableToSinkInstruction` does not charge
operands that are themselves about to be sunk. -/

/-- A candidate instruction: its identity and the operand values that
would have to be provided by a synthesized PHI. -/
structure SinkInstr where
  id : Nat
  phiOps : List Nat
deriving DecidableEq, Repr

/-- The instruction ids of one lockstep row. -/
def rowIds (row : List SinkInstr) : List Nat := row.map SinkInstr.id

/-- The instruction ids of a list of rows (`InstructionsToSink` after
the legality scan holds every candidate). -/
def idsOfRows (rows : List (List SinkInstr)) : List Nat :=
  (rows.map rowIds).flatten

/-- `ProfitableToSinkInstruction` (SimplifyCFG.cpp:2039-2055): count the
PHI-needing operand values of the row that are not themselves in the
to-sink set, divide by the predecessor count rounding up, and accept
only when at most one PHI instruction would be synthesized for this
row. -/
def profitableToSink (numPreds : Nat) (toSink : List Nat)
    (row : List SinkInstr) : Bool :=
  decide ((((row.map (fun i =>
      (i.phiOps.filter (fun v => !toSink.contains v)).length)).sum) / numPreds +
    (if ((row.map (fun i =>
      (i.phiOps.filter (fun v => !toSink.contains v)).length)).sum) % numPreds ≠ 0
     then 1 else 0)) ≤ 1)

/-- The forward profitability scan (SimplifyCFG.cpp:2071-2086): starting
at the tail, count rows while `ProfitableToSinkInstruction` accepts them
against the full candidate set, stopping at the first unprofitable
row. -/
def sinkForwardScan (numPreds : Nat) (toSink : List Nat) :
    List (List SinkInstr) → Nat
  | [] => 0
  | r :: rs =>
    if profitableToSink numPreds toSink r then
      sinkForwardScan numPreds toSink rs + 1
    else 0

/-- The backward fix-up scan (SimplifyCFG.cpp:2088-2121): walk rows
`i - 1, ..., 0` back toward the tail; each visited row's instructions
are erased from the profitable set, and whenever the row is unprofitable
against the current to-sink snapshot, `ScanIdx` drops to that row's
index and the snapshot becomes the eroded profitable set. -/
def sinkFixupLoop (numPreds : Nat) (rows : List (List SinkInstr)) :
    Nat → List Nat → List Nat → Nat → Nat
  | 0, _, _, scanIdx => scanIdx
  | i + 1, profSet, toSink, scanIdx =>
    if profitableToSink numPreds toSink (rows.getD i []) then
      sinkFixupLoop numPreds rows i
        (profSet.filter (fun x => !(rowIds (rows.getD i [])).contains x))
        toSink scanIdx
    else
      sinkFixupLoop numPreds rows i
        (profSet.filter (fun x => !(rowIds (rows.getD i [])).contains x))
        (profSet.filter (fun x => !(rowIds (rows.getD i [])).contains x))
        i

/-- The number of rows `SinkCommonCodeFromPredecessors` decides to sink
(the final `ScanIdx`; the sinking loop, SimplifyCFG.cpp:2166-2186, sinks
at most this many rows, from the tail): the forward scan bounds it, and
when the forward scan stopped early the backward fix-up scan may lower
it further. -/
def sinkCommonScanIdx (numPreds : Nat) (rows : List (List SinkInstr)) : Nat :=
  if rows.length = 0 then 0
  else if sinkForwardScan numPreds (idsOfRows rows) rows = 0 then 0
  else if sinkForwardScan numPreds (idsOfRows rows) rows < rows.length then
    sinkFixupLoop numPreds rows (sinkForwardScan numPreds (idsOfRows rows) rows)
      (idsOfRows (rows.take (sinkForwardScan numPreds (idsOfRows rows) rows)))
      (idsOfRows (rows.take (sinkForwardScan numPreds (idsOfRows rows) rows)))
      (sinkForwardScan numPreds (idsOfRows rows) rows)
  else sinkForwardScan numPreds (idsOfRows rows) rows

theorem sinkFixupLoop_le (numPreds : Nat) (rows : List (List SinkInstr)) :
    ∀ (i : Nat) (p t : List Nat) (s : Nat),
      sinkFixupLoop numPreds rows i p t s ≤ max s i := by
  intro i
  induction i with
  | zero => intro p t s; simp [sinkFixupLoop]
  | succ n ih =>
    intro p t s
    unfold sinkFixupLoop
    by_cases hp : profitableToSink numPreds t (rows.getD n []) = true
    · rw [if_pos hp]
      have := ih (p.filter (fun x => !(rowIds (rows.getD n [])).contains x)) t s
      omega
    · rw [if_neg hp]
      have := ih (p.filter (fun x => !(rowIds (rows.getD n [])).contains x))
        (p.filter (fun x => !(rowIds (rows.getD n [])).contains x)) n
      omega

theorem sinkForwardScan_boundary (numPreds : Nat) (toSink : List Nat) :
    ∀ rows : List (List SinkInstr),
      sinkForwardScan numPreds toSink rows < rows.length →
      profitableToSink numPreds toSink
        (rows.getD (sinkForwardScan numPreds toSink rows) []) = false := by
  intro rows
  induction rows with
  | nil => intro h; simp [sinkForwardScan] at h
  | cons r rs ih =>
    intro h
    by_cases hp : profitableToSink numPreds toSink r = true
    · rw [sinkForwardScan, if_pos hp] at h ⊢
      simpa using ih (by simpa using h)
    · rw [Bool.not_eq_true] at hp
      rw [sinkForwardScan, hp]
      simpa using hp

/-- C8: the profitability cap of tail sinking.  Scanning greedily from
the tail backward, the first row whose sinking would synthesize more
than one PHI instruction (the `NumPHIInsts <= 1` bound) stops the
forward scan there, and the final decided count never exceeds the
forward scan — so that row, and every row earlier than it (further from
the tail), is not sunk. -/
theorem sink_caps_one_phi_per_instruction (numPreds : Nat)
    (rows : List (List SinkInstr)) :
    sinkCommonScanIdx numPreds rows ≤
      sinkForwardScan numPreds (idsOfRows rows) rows ∧
    (sinkForwardScan numPreds (idsOfRows rows) rows < rows.length →
      profitableToSink numPreds (idsOfRows rows)
        (rows.getD (sinkForwardScan numPreds (idsOfRows rows) rows) []) = false) := by
  constructor
  · unfold sinkCommonScanIdx
    by_cases h0 : rows.length = 0
    · simp [h0]
    · rw [if_neg h0]
      by_cases h1 : sinkForwardScan numPreds (idsOfRows rows) rows = 0
      · simp [h1]
      · rw [if_neg h1]
        by_cases h2 : sinkForwardScan numPreds (idsOfRows rows) rows < rows.length
        · rw [if_pos h2]
          have := sinkFixupLoop_le numPreds rows
            (sinkForwardScan numPreds (idsOfRows rows) rows)
            (idsOfRows (rows.take (sinkForwardScan numPreds (idsOfRows rows) rows)))
            (idsOfRows (rows.take (sinkForwardScan numPreds (idsOfRows rows) rows)))
            (sinkForwardScan numPreds (idsOfRows rows) rows)
          omega
        · rw [if_neg h2]
  · exact sinkForwardScan_boundary numPreds (idsOfRows rows) rows

/-- Witness for `sink_caps_one_phi_per_instruction`: two predecessors,
three candidate rows from the tail; the tail row needs no PHI, the
middle row's two instructions need one PHI (two differing operand
values across two predecessors), and the third row needs three PHIs —
so the scan keeps two rows and row 2 (and anything earlier) is not
sunk. -/
theorem sink_caps_one_phi_per_instruction_witness :
    sinkCommonScanIdx 2
      [[⟨1, []⟩, ⟨2, []⟩],
       [⟨3, [10]⟩, ⟨4, [11]⟩],
       [⟨5, [20, 21, 22]⟩, ⟨6, [23, 24, 25]⟩]] ≤
      sinkForwardScan 2
        (idsOfRows [[⟨1, []⟩, ⟨2, []⟩],
          [⟨3, [10]⟩, ⟨4, [11]⟩],
          [⟨5, [20, 21, 22]⟩, ⟨6, [23, 24, 25]⟩]])
        [[⟨1, []⟩, ⟨2, []⟩],
         [⟨3, [10]⟩, ⟨4, [11]⟩],
         [⟨5, [20, 21, 22]⟩, ⟨6, [23, 24, 25]⟩]] ∧
    profitableToSink 2
      (idsOfRows [[⟨1, []⟩, ⟨2, []⟩],
        [⟨3, [10]⟩, ⟨4, [11]⟩],
        [⟨5, [20, 21, 22]⟩, ⟨6, [23, 24, 25]⟩]])
      ([[⟨1, []⟩, ⟨2, []⟩],
        [⟨3, [10]⟩, ⟨4, [11]⟩],
        [⟨5, [20, 21, 22]⟩, ⟨6, [23, 24, 25]⟩]].getD
        (sinkForwardScan 2
          (idsOfRows [[⟨1, []⟩, ⟨2, []⟩],
            [⟨3, [10]⟩, ⟨4, [11]⟩],
            [⟨5, [20, 21, 22]⟩, ⟨6, [23, 24, 25]⟩]])
          [[⟨1, []⟩, ⟨2, []⟩],
           [⟨3, [10]⟩, ⟨4, [11]⟩],
           [⟨5, [20, 21, 22]⟩, ⟨6, [23, 24, 25]⟩]]) []) = false :=
  ⟨(sink_caps_one_phi_per_instruction 2
      [[⟨1, []⟩, ⟨2, []⟩],
       [⟨3, [10]⟩, ⟨4, [11]⟩],
       [⟨5, [20, 21, 22]⟩, ⟨6, [23, 24, 25]⟩]]).1,
   (sink_caps_one_phi_per_instruction 2
      [[⟨1, []⟩, ⟨2, []⟩],
       [⟨3, [10]⟩, ⟨4, [11]⟩],
       [⟨5, [20, 21, 22]⟩, ⟨6, [23, 24, 25]⟩]]).2 (by decide)⟩
